import Mathlib

/-!
Verification development for the MINAM RAG Streamlit application (`app.py`).

The application wires: a line-delimited-JSON loader (langchain `JSONLoader`
with `jq_schema='.texto_completo'`, `text_content=False`, `json_lines=True`),
a `RecursiveCharacterTextSplitter(chunk_size=1000, chunk_overlap=100)`,
HuggingFace embeddings, a FAISS vector store queried with `k=5`, and a hosted
Gemini chat model, behind a Streamlit page (`main`).

Everything below is a shallow embedding: Python strings are `List Char`,
fallible calls return `Option`/`Except`, the external embedding model and the
hosted LLM are function parameters of the environment, and one Streamlit
script run is the explicit function `main_run` on an explicit session state.
The splitter and loader definitions are translated from the langchain source
that `app.py` calls with its default parameters
(`keep_separator=True`, `strip_whitespace=True`, `add_start_index=False`,
`is_separator_regex=False`, separators `["\n\n", "\n", " ", ""]`).
-/

/-- Configured chunk budget: `RecursiveCharacterTextSplitter(chunk_size=1000, ...)`. -/
def chunk_size : Nat := 1000

/-- Configured overlap: `RecursiveCharacterTextSplitter(..., chunk_overlap=100)`. -/
def chunk_overlap : Nat := 100

/-- Characters Python `str.strip()` removes: exactly the code points whose
`str.isspace()` is true — ASCII whitespace, the separator controls
U+001C–U+001F, NEL (U+0085), NBSP (U+00A0), U+1680, the U+2000–U+200A
spaces, the line and paragraph separators U+2028/U+2029, U+202F, U+205F and
U+3000. -/
def wsChars : List Char :=
  [' ', '\t', '\n', '\r', Char.ofNat 0x0B, Char.ofNat 0x0C,
   Char.ofNat 0x1C, Char.ofNat 0x1D, Char.ofNat 0x1E, Char.ofNat 0x1F,
   Char.ofNat 0x85, Char.ofNat 0xA0, Char.ofNat 0x1680,
   Char.ofNat 0x2000, Char.ofNat 0x2001, Char.ofNat 0x2002, Char.ofNat 0x2003,
   Char.ofNat 0x2004, Char.ofNat 0x2005, Char.ofNat 0x2006, Char.ofNat 0x2007,
   Char.ofNat 0x2008, Char.ofNat 0x2009, Char.ofNat 0x200A,
   Char.ofNat 0x2028, Char.ofNat 0x2029, Char.ofNat 0x202F,
   Char.ofNat 0x205F, Char.ofNat 0x3000]

/-- `str.strip()`: drop whitespace from both ends. -/
def pyStrip (l : List Char) : List Char :=
  ((l.dropWhile (· ∈ wsChars)).reverse.dropWhile (· ∈ wsChars)).reverse

/-- Boolean test: the first list starts the second one. -/
def leadsWith : List Char → List Char → Bool
  | [], _ => true
  | _ :: _, [] => false
  | a :: as, b :: bs => a == b && leadsWith as bs

theorem leadsWith_append (s l : List Char) (h : leadsWith s l = true) :
    ∃ t, l = s ++ t := by
  induction s generalizing l with
  | nil => exact ⟨l, rfl⟩
  | cons a as ih =>
    cases l with
    | nil => simp [leadsWith] at h
    | cons b bs =>
      simp only [leadsWith, Bool.and_eq_true, beq_iff_eq] at h
      obtain ⟨t, ht⟩ := ih bs h.2
      exact ⟨t, by simp [h.1, ht]⟩

/-- First occurrence of `sep` in `text`: `some (before, after)` with
`text = before ++ sep ++ after`, scanning left to right (the behaviour of
`re.split` on an escaped literal separator). -/
def findSplit (sep : List Char) : List Char → Option (List Char × List Char)
  | [] => none
  | c :: rest =>
    if leadsWith sep (c :: rest) then some ([], (c :: rest).drop sep.length)
    else (findSplit sep rest).map (fun p => (c :: p.1, p.2))

theorem findSplit_eq (sep : List Char) (text p s : List Char)
    (h : findSplit sep text = some (p, s)) : text = p ++ sep ++ s := by
  induction text generalizing p s with
  | nil => simp [findSplit] at h
  | cons c rest ih =>
    by_cases hpre : leadsWith sep (c :: rest) = true
    · rw [findSplit, if_pos hpre] at h
      injection h with h'
      injection h' with i1 i2
      subst i1
      subst i2
      obtain ⟨t, ht⟩ := leadsWith_append sep (c :: rest) hpre
      rw [ht]
      simp [List.drop_left]
    · rw [findSplit, if_neg hpre] at h
      cases hf : findSplit sep rest with
      | none => rw [hf] at h; simp at h
      | some q =>
        rw [hf] at h
        simp only [Option.map_some'] at h
        injection h with h'
        injection h' with i1 i2
        subst i1
        subst i2
        have hrest := ih q.1 q.2 (by rw [hf])
        rw [hrest]
        simp

theorem findSplit_length (sep : List Char) (text p s : List Char)
    (h : findSplit sep text = some (p, s)) : s.length + sep.length ≤ text.length := by
  have := findSplit_eq sep text p s h
  subst this
  simp [List.length_append]
  omega

/-- Python `text.split(sep)` for a literal separator (what `re.split` on the
escaped separator computes before the capture groups are re-attached),
written with explicit fuel so that it evaluates by structural recursion; a
nonempty separator consumes at least one character per round, so
`text.length + 1` units of fuel are always enough. -/
def splitOnSepFuel (sep : List Char) : Nat → List Char → List (List Char)
  | 0, text => [text]
  | fuel + 1, text =>
    match findSplit sep text with
    | none => [text]
    | some (p, s) => p :: splitOnSepFuel sep fuel s

def splitOnSep (sep : List Char) (text : List Char) : List (List Char) :=
  splitOnSepFuel sep (text.length + 1) text

theorem splitOnSepFuel_ne_nil (sep : List Char) (fuel : Nat) (text : List Char) :
    splitOnSepFuel sep fuel text ≠ [] := by
  cases fuel with
  | zero => simp [splitOnSepFuel]
  | succ fuel =>
    rw [splitOnSepFuel]
    split <;> simp

theorem splitOnSep_ne_nil (sep : List Char) (text : List Char) :
    splitOnSep sep text ≠ [] :=
  splitOnSepFuel_ne_nil sep (text.length + 1) text

/-- Joining the parts of `splitOnSep` with the separator restores the text. -/
def joinWithSep (sep : List Char) : List (List Char) → List Char
  | [] => []
  | [p] => p
  | p :: q :: rest => p ++ sep ++ joinWithSep sep (q :: rest)

theorem splitOnSepFuel_join (sep : List Char) (hs : sep ≠ []) :
    ∀ (fuel : Nat) (text : List Char), text.length < fuel →
      joinWithSep sep (splitOnSepFuel sep fuel text) = text := by
  intro fuel
  induction fuel with
  | zero => intro text htext; omega
  | succ fuel ih =>
    intro text htext
    rw [splitOnSepFuel]
    cases hf : findSplit sep text with
    | none => rfl
    | some q =>
      obtain ⟨p1, s1⟩ := q
      have h1 := findSplit_length sep text p1 s1 hf
      have h2 : 0 < sep.length := List.length_pos.mpr hs
      have hrec := ih s1 (by omega)
      have heq := findSplit_eq sep text p1 s1 hf
      cases hsp : splitOnSepFuel sep fuel s1 with
      | nil => exact absurd hsp (splitOnSepFuel_ne_nil sep fuel s1)
      | cons a t =>
        rw [hsp] at hrec
        show joinWithSep sep (p1 :: splitOnSepFuel sep fuel s1) = text
        rw [hsp]
        simp only [joinWithSep]
        rw [hrec, heq]

theorem splitOnSep_join (sep : List Char) (hs : sep ≠ []) (text : List Char) :
    joinWithSep sep (splitOnSep sep text) = text :=
  splitOnSepFuel_join sep hs (text.length + 1) text (by omega)

/-- `_split_text_with_regex(text, re.escape(separator), keep_separator=True)`:
split on the literal separator, re-attach each separator occurrence to the
front of the following piece, and drop empty pieces.  For the empty separator
the pieces are the single characters (`list(text)`). -/
def splitWithSep (sep text : List Char) : List (List Char) :=
  if sep = [] then (text.map (fun c => [c])).filter (· ≠ [])
  else
    match splitOnSep sep text with
    | [] => []
    | p :: ps => (p :: ps.map (fun q => sep ++ q)).filter (· ≠ [])

theorem flatten_filter_ne_nil (l : List (List Char)) :
    (l.filter (· ≠ [])).flatten = l.flatten := by
  induction l with
  | nil => rfl
  | cons a t ih =>
    simp only [List.filter_cons]
    split
    · simp only [List.flatten_cons, ih]
    · rename_i hcond
      have ha : a = [] := by simpa using hcond
      subst ha
      simp only [List.flatten_cons, List.nil_append, ih]

theorem flatten_map_single (text : List Char) :
    (text.map (fun c => [c])).flatten = text := by
  induction text with
  | nil => rfl
  | cons c t ih => simp [ih]

theorem flatten_keep_pieces (sep : List Char) (p : List Char) (ps : List (List Char)) :
    (p :: ps.map (fun q => sep ++ q)).flatten = joinWithSep sep (p :: ps) := by
  induction ps generalizing p with
  | nil => simp [joinWithSep]
  | cons q t ih =>
    have hq := ih q
    simp only [List.map_cons, List.flatten_cons, joinWithSep] at hq ⊢
    rw [← hq]
    simp [List.append_assoc]

/-- The pieces produced by `_split_text_with_regex` concatenate back to the
original text (separators are kept). -/
theorem splitWithSep_flatten (sep text : List Char) :
    (splitWithSep sep text).flatten = text := by
  rw [splitWithSep]
  split
  · rw [flatten_filter_ne_nil, flatten_map_single]
  · rename_i hs
    cases hsp : splitOnSep sep text with
    | nil => exact absurd hsp (splitOnSep_ne_nil sep text)
    | cons p ps =>
      rw [flatten_filter_ne_nil, flatten_keep_pieces]
      rw [← hsp, splitOnSep_join sep hs text]

/-- The separator-selection loop at the top of `_split_text`: the first
separator that is empty or occurs in the text is chosen (with the remaining
suffix as the new separator list); if none matches, the last separator is
kept with no remaining list. -/
def chooseSep (text : List Char) : List (List Char) → List Char × List (List Char)
  | [] => ([], [])
  | [s] => (s, [])
  | s :: s2 :: rest =>
    if s = [] then ([], [])
    else if (findSplit s text).isSome then (s, s2 :: rest)
    else chooseSep text (s2 :: rest)

/-- `_join_docs`: join with the separator, strip whitespace
(`strip_whitespace=True` is the default), drop the result if empty. -/
def join_docs (sep : List Char) (docs : List (List Char)) : Option (List Char) :=
  let text := pyStrip (joinWithSep sep docs)
  if text = [] then none else some text

/-- The `while` loop inside `_merge_splits`: pop leading splits until the
running total is at most the overlap and there is room for the incoming
split.  The guard's separator term is conditioned on `len(current_doc) > 0`
in the source, so in the cons case it is just `sepLen`; the subtraction's
separator term is conditioned on `len(current_doc) > 1`.  (When
`current_doc` is empty, `total` is 0 in the source and the guard is false,
so the `[]` case returns directly.) -/
def popLoop (sepLen slen : Nat) : List (List Char) → Nat → List (List Char) × Nat
  | [], total => ([], total)
  | c :: rest, total =>
    if chunk_overlap < total ∨
        (chunk_size < total + slen + sepLen ∧ 0 < total) then
      popLoop sepLen slen rest (total - (c.length + if rest = [] then 0 else sepLen))
    else (c :: rest, total)

/-- The main loop of `_merge_splits`: accumulate splits into `cur` (running
length `total`); when the next split would overflow the budget, emit the
joined document and pop down to the overlap.  The emit-and-pop block of the
source is guarded by `len(current_doc) > 0`, and with an empty `current_doc`
the overflowing and non-overflowing branches both just append the split, so
the empty case is written as the plain append. -/
def mergeAux (sep : List Char) : List (List Char) → Nat → List (List Char) → List (List Char)
  | cur, _total, [] => (join_docs sep cur).toList
  | [], total, d :: rest => mergeAux sep [d] (total + d.length) rest
  | c0 :: cur, total, d :: rest =>
    if chunk_size < total + d.length + sep.length then
      (join_docs sep (c0 :: cur)).toList ++
        (let popped := popLoop sep.length d.length (c0 :: cur) total
         mergeAux sep (popped.1 ++ [d])
           (popped.2 + d.length + (if popped.1 = [] then 0 else sep.length)) rest)
    else
      mergeAux sep (c0 :: cur ++ [d]) (total + d.length + sep.length) rest

/-- `_merge_splits(splits, separator)`. -/
def merge_splits (sep : List Char) (splits : List (List Char)) : List (List Char) :=
  mergeAux sep [] 0 splits

/-- The split-processing loop of `_split_text`: runs of good (short) splits
are merged (with the empty separator, since `keep_separator=True`); each
oversized split is handed to `handle` (recursion into the remaining
separators, or emitted raw when none remain). -/
def processSplits (handle : List Char → List (List Char)) (good : List (List Char)) :
    List (List Char) → List (List Char)
  | [] => if good = [] then [] else merge_splits [] good
  | s :: rest =>
    if s.length < chunk_size then processSplits handle (good ++ [s]) rest
    else (if good = [] then [] else merge_splits [] good) ++ handle s ++
      processSplits handle [] rest

/-- `RecursiveCharacterTextSplitter._split_text(text, separators)`, with fuel
bounding the recursion depth (each recursive call passes a strict suffix of
the separator list, so fuel 4 is exact for the four default separators). -/
def splitTextFuel : Nat → List (List Char) → List Char → List (List Char)
  | 0, _, _ => []
  | fuel + 1, seps, text =>
    let c := chooseSep text seps
    let splits := splitWithSep c.1 text
    processSplits (fun s => if c.2 = [] then [s] else splitTextFuel fuel c.2 s) [] splits

/-- The default separator list of `RecursiveCharacterTextSplitter`. -/
def defaultSeps : List (List Char) := [['\n', '\n'], ['\n'], [' '], []]

/-- `split_text` as configured in `load_and_process_documents`. -/
def split_text (text : List Char) : List (List Char) :=
  splitTextFuel 4 defaultSeps text

/-- A JSON value as far as this input format needs. -/
inductive JVal where
  | s : String → JVal
  | n : Int → JVal
  | null : JVal
deriving DecidableEq, Repr

/-- A langchain `Document`: page content plus metadata mapping.  Both the raw
documents produced by the loader and the chunks produced by the splitter have
this shape. -/
structure Doc where
  page_content : List Char
  metadata : List (String × JVal)
deriving DecidableEq, Repr

/-- `jq_schema='.texto_completo'` applied to one parsed JSONL record
(`jq` yields `null` when the field is absent). -/
def jq_texto_completo (line : List (String × JVal)) : JVal :=
  (line.lookup "texto_completo").getD .null

/-- `JSONLoader._get_text` with `text_content=False`: a string value is used
as is, a number is serialized with `str`, and `None` becomes the empty
string (`return str(content) if content is not None else ""`). -/
def jval_text : JVal → List Char
  | .s s => s.toList
  | .n k => (toString k).toList
  | .null => []

/-- `JSONLoader.load` with `json_lines=True` and no `metadata_func`: one
`Document` per input line whose text is the `jq_schema` extraction and whose
metadata is exactly `{"source": file_path, "seq_num": i}` (1-based). -/
def JSONLoader_load (file_path : String) (lines : List (List (String × JVal))) : List Doc :=
  lines.enum.map (fun p =>
    { page_content := jval_text (jq_texto_completo p.2),
      metadata := [("source", .s file_path), ("seq_num", .n (p.1 + 1))] })

/-- `split_documents`: split each document's text and copy its metadata onto
every resulting chunk (`create_documents` deep-copies the parent metadata;
`add_start_index` is left at its default `False`). -/
def split_documents (docs : List Doc) : List Doc :=
  (docs.map (fun d =>
    (split_text d.page_content).map (fun t => Doc.mk t d.metadata))).flatten

/-- Truthiness test of `if not GEMINI_API_KEY` (missing or empty). -/
def keyMissing : Option String → Bool
  | none => true
  | some s => s == ""

/-- The application's environment: the input file's parsed contents (`none`
models a missing `./data.jsonl`, i.e. `FileNotFoundError`), the credential
from `.env`, and the two external model services as opaque functions (the
embedding model, and the hosted Gemini call which may fail). -/
structure Env where
  fileLines : Option (List (List (String × JVal)))
  apiKey : Option String
  embed : List Char → List Int
  llm : List Char → Except String String

/-- The Streamlit session state this script uses. -/
structure SessionState where
  query_to_process : Option String
deriving DecidableEq, Repr

/-- One rendered element of the page.  `exceptionBox` is the error panel that
the Streamlit runtime itself renders for an exception that escapes the
script; the session and the server survive such an exception. -/
inductive PageItem where
  | markup : String → PageItem
  | errorMsg : String → PageItem
  | warnMsg : String → PageItem
  | answerBox : List Char → PageItem
  | sourceExpander : List Char → List Char → List Char → PageItem
  | exceptionBox : String → PageItem
deriving DecidableEq, Repr

/-- The outcome of one script run: the rendered page, the session state left
behind, how many hosted-model calls were made, and the prompt sent (if any). -/
structure RunResult where
  page : List PageItem
  state : SessionState
  llmCalls : Nat
  promptUsed : Option (List Char)

/-- `FAISS.from_documents`: embed every chunk and store it with its vector. -/
def FAISS_from_documents (emb : List Char → List Int) (chunks : List Doc) :
    List (Doc × List Int) :=
  chunks.map (fun c => (c, emb c.page_content))

/-- Squared L2 distance, the FAISS default metric. -/
def dist2 (u v : List Int) : Int :=
  ((u.zip v).map (fun p => (p.1 - p.2) * (p.1 - p.2))).sum

/-- Stable insertion into a distance-ranked list (strictly closer entries
stay in front; ties keep index order, as FAISS exact search does). -/
def insertRanked (x : Doc × Int) : List (Doc × Int) → List (Doc × Int)
  | [] => [x]
  | y :: t => if y.2 < x.2 then y :: insertRanked x t else x :: y :: t

/-- Stable sort of the store by distance. -/
def rankSort : List (Doc × Int) → List (Doc × Int)
  | [] => []
  | x :: t => insertRanked x (rankSort t)

/-- `vector_store.as_retriever(search_kwargs={"k": 5})` invoked on a query:
embed the question with the same embedding function, rank all stored chunks
by similarity, return the top `k`. -/
def retrieve (store : List (Doc × List Int)) (emb : List Char → List Int)
    (q : List Char) (k : Nat) : List Doc :=
  let qv := emb q
  ((rankSort (store.map (fun e => (e.1, dist2 qv e.2)))).map (fun e => e.1)).take k

/-- `st.error` text of the `FileNotFoundError` handler. -/
def ingestionErrorText : String := "⚠️ No se encontró el archivo `data.jsonl`."

/-- `st.error` text shown by `main` when no vector store was produced. -/
def ragInitErrorText : String := "❌ No se pudo inicializar el motor RAG."

/-- `st.warning` text shown by `main` when the credential is missing. -/
def keyWarnText : String :=
  "⚠️ Clave GEMINI_API_KEY no encontrada en el archivo .env. Por favor, revisa tu clave de Google AI Studio."

/-- `load_and_process_documents`: load the JSONL file, split into chunks,
embed into a FAISS store.  On a missing file the `except FileNotFoundError`
branch shows an error and returns `None`.  (The input arrives here already
parsed, so the generic `except Exception` branch has nothing to catch.) -/
def load_and_process_documents (env : Env) :
    Option (List (Doc × List Int)) × List PageItem :=
  match env.fileLines with
  | none => (none, [.errorMsg ingestionErrorText])
  | some lines =>
    let documents := JSONLoader_load "./data.jsonl" lines
    let chunks := split_documents documents
    (some (FAISS_from_documents env.embed chunks), [])

/-- `format_docs`: `"\n\n".join(doc.page_content for doc in docs)`. -/
def format_docs (docs : List Doc) : List Char :=
  joinWithSep ['\n', '\n'] (docs.map (fun d => d.page_content))

/-- The prompt template literal, up to the `context` slot. -/
def promptPart1 : String :=
  "\n        Eres un asistente experto y formal en normativa del MINAM. \n        Responde con precisión y profesionalismo basándote únicamente en el CONTEXTO proporcionado. \n        Si la información no está en el contexto, indica de forma clara que no puedes responder.\n\n        CONTEXTO: "

/-- The prompt template literal between the `context` and `question` slots. -/
def promptPart2 : String := "\n        PREGUNTA: "

/-- The prompt template literal after the `question` slot. -/
def promptPart3 : String := "\n    "

/-- `prompt_template` instantiated with a context block and a question. -/
def buildPrompt (context question : List Char) : List Char :=
  promptPart1.toList ++ context ++ promptPart2.toList ++ question ++ promptPart3.toList

/-- Render a metadata value the way an f-string would. -/
def jval_str : JVal → String
  | .s s => s
  | .n k => toString k
  | .null => "None"

/-- `doc.metadata.get('titulo', 'Sin título disponible')` as displayed. -/
def cit_titulo (d : Doc) : String :=
  match d.metadata.lookup "titulo" with
  | some v => jval_str v
  | none => "Sin título disponible"

/-- `doc.metadata.get('tipo', 'Documento')` as displayed. -/
def cit_tipo (d : Doc) : String :=
  match d.metadata.lookup "tipo" with
  | some v => jval_str v
  | none => "Documento"

/-- One Streamlit script run of `main`.  `submitted = some q` models the run
triggered by the form's submit button with `q` in the text input; `none`
models any other rerun (the stored `query_to_process` is then reused).  The
`qa_chain_rag` invocation is the retrieval, prompt assembly and hosted-model
call; a failing hosted call raises out of the script, which Streamlit
surfaces as an exception panel while the session and cached resources
survive. -/
def main_run (env : Env) (s0 : SessionState) (submitted : Option String) : RunResult :=
  let staticPage : List PageItem := [.markup "css", .markup "sidebar", .markup "title"]
  let lp := load_and_process_documents env
  match lp.1 with
  | none =>
    { page := staticPage ++ lp.2 ++ [.errorMsg ragInitErrorText],
      state := s0, llmCalls := 0, promptUsed := none }
  | some vs =>
    if keyMissing env.apiKey then
      { page := staticPage ++ lp.2 ++ [.warnMsg keyWarnText],
        state := s0, llmCalls := 0, promptUsed := none }
    else
      let s1 : SessionState := match submitted with
        | some q => { query_to_process := some q }
        | none => s0
      let pageForm := staticPage ++ lp.2 ++ [.markup "form"]
      match s1.query_to_process with
      | none => { page := pageForm, state := s1, llmCalls := 0, promptUsed := none }
      | some q =>
        let ctx := format_docs (retrieve vs env.embed q.toList 5)
        let prompt := buildPrompt ctx q.toList
        match env.llm prompt with
        | .error e =>
          { page := pageForm ++ [.exceptionBox e],
            state := s1, llmCalls := 1, promptUsed := some prompt }
        | .ok a =>
          let source_documents := retrieve vs env.embed q.toList 5
          { page := pageForm ++ [.answerBox a.toList] ++ source_documents.map (fun d =>
              .sourceExpander (cit_tipo d).toList (cit_titulo d).toList d.page_content),
            state := { query_to_process := none }, llmCalls := 1, promptUsed := some prompt }

/-- Is a page item a user-visible error or warning? -/
def isUserError : PageItem → Bool
  | .errorMsg _ => true
  | .warnMsg _ => true
  | .exceptionBox _ => true
  | _ => false

/-- Number of user-visible error/warning elements on a page. -/
def countUserErrors (page : List PageItem) : Nat :=
  (page.filter isUserError).length

/-- The source-citation elements of a page, in display order. -/
def sourceItems (page : List PageItem) : List PageItem :=
  page.filter (fun i => match i with | .sourceExpander _ _ _ => true | _ => false)

/-- The chunk texts cited on a page, in display order. -/
def sourceTexts (page : List PageItem) : List (List Char) :=
  page.filterMap (fun i => match i with | .sourceExpander _ _ t => some t | _ => none)

/-- The rendered answers of a page. -/
def answerTexts (page : List PageItem) : List (List Char) :=
  page.filterMap (fun i => match i with | .answerBox a => some a | _ => none)

theorem joinWithSep_nil_sep (l : List (List Char)) : joinWithSep [] l = l.flatten := by
  induction l with
  | nil => rfl
  | cons p t ih =>
    cases t with
    | nil => simp [joinWithSep]
    | cons q r =>
      simp only [joinWithSep] at ih ⊢
      rw [ih]
      simp

theorem pyStrip_length_le (l : List Char) : (pyStrip l).length ≤ l.length := by
  unfold pyStrip
  have h1 : ((l.dropWhile (fun c => c ∈ wsChars))).length ≤ l.length :=
    (List.dropWhile_suffix _).length_le
  have h2 : (((l.dropWhile (fun c => c ∈ wsChars)).reverse.dropWhile
      (fun c => c ∈ wsChars))).length ≤
      (l.dropWhile (fun c => c ∈ wsChars)).reverse.length :=
    (List.dropWhile_suffix _).length_le
  simp only [List.length_reverse] at h2 ⊢
  omega

theorem member_length_le_flatten (s : List Char) (l : List (List Char)) (h : s ∈ l) :
    s.length ≤ l.flatten.length := by
  induction l with
  | nil => simp at h
  | cons a t ih =>
    rcases List.mem_cons.mp h with h' | h'
    · subst h'; simp [List.length_append]
    · have := ih h'
      simp only [List.flatten_cons, List.length_append]
      omega

/-- While the accumulated splits and the incoming ones fit inside the budget,
`_merge_splits` just accumulates: the result is the single joined document. -/
theorem mergeAux_small (rest : List (List Char)) :
    ∀ (cur : List (List Char)) (total : Nat), total = cur.flatten.length →
      cur.flatten.length + rest.flatten.length ≤ chunk_size →
      mergeAux [] cur total rest = (join_docs [] (cur ++ rest)).toList := by
  induction rest with
  | nil => intro cur total _ _; cases cur <;> simp [mergeAux]
  | cons d rest ih =>
    intro cur total htot hle
    have hfl : (d :: rest).flatten.length = d.length + rest.flatten.length := by simp
    cases cur with
    | nil =>
      simp only [List.flatten_nil, List.length_nil] at htot
      subst htot
      rw [mergeAux]
      rw [ih [d] (0 + d.length) (by simp)
        (by
          have e1 : ([d] : List (List Char)).flatten.length = d.length := by simp
          simp only [List.flatten_nil, List.length_nil, Nat.zero_add] at hle
          omega)]
      simp
    | cons c0 cur' =>
      have hng : ¬(chunk_size < total + d.length + (List.length ([] : List Char))) := by
        simp only [List.length_nil, Nat.add_zero, not_lt]
        omega
      rw [mergeAux, if_neg hng]
      have e1 : (c0 :: (cur' ++ [d])).flatten.length =
          (c0 :: cur').flatten.length + d.length := by simp; omega
      have htot2 : total + d.length + (List.length ([] : List Char)) =
          (c0 :: (cur' ++ [d])).flatten.length := by
        simp only [List.length_nil, Nat.add_zero]
        omega
      have hle2 : (c0 :: (cur' ++ [d])).flatten.length + rest.flatten.length ≤ chunk_size := by
        omega
      exact (ih (c0 :: (cur' ++ [d])) (total + d.length + (List.length ([] : List Char)))
        htot2 hle2).trans (by simp)

/-- When every split is below the budget, the `_split_text` loop only
accumulates good splits and merges them at the end. -/
theorem processSplits_allSmall (l : List (List Char)) :
    ∀ (good : List (List Char)) (handle : List Char → List (List Char)),
      (∀ s ∈ l, s.length < chunk_size) →
      processSplits handle good l =
        if good ++ l = [] then [] else merge_splits [] (good ++ l) := by
  induction l with
  | nil => intro good handle _; simp [processSplits]
  | cons s rest ih =>
    intro good handle hsmall
    rw [processSplits, if_pos (hsmall s (List.mem_cons_self s rest))]
    rw [ih (good ++ [s]) handle (fun x hx => hsmall x (List.mem_cons_of_mem s hx))]
    rw [List.append_assoc]
    simp

/-- The pop loop keeps `total` equal to the summed length of the retained
splits, and exits only when the retained total is at most the overlap and
either leaves room for the incoming split or is empty. -/
theorem popLoop_post (slen : Nat) (cur : List (List Char)) :
    ∀ (total : Nat), total = cur.flatten.length →
      (popLoop 0 slen cur total).2 = (popLoop 0 slen cur total).1.flatten.length ∧
      (popLoop 0 slen cur total).2 ≤ chunk_overlap ∧
      ((popLoop 0 slen cur total).2 + slen ≤ chunk_size ∨ (popLoop 0 slen cur total).2 = 0) := by
  induction cur with
  | nil =>
    intro total htot
    simp only [List.flatten_nil, List.length_nil] at htot
    subst htot
    refine ⟨rfl, ?_, Or.inr rfl⟩
    simp [popLoop, chunk_overlap]
  | cons c rest ih =>
    intro total htot
    rw [popLoop]
    simp only [ite_self]
    split
    · have harg : total - (c.length + 0) = rest.flatten.length := by
        simp only [List.flatten_cons, List.length_append] at htot
        omega
      exact ih _ harg
    · rename_i hguard
      rw [not_or] at hguard
      refine ⟨htot, by omega, ?_⟩
      by_cases h0 : total = 0
      · exact Or.inr h0
      · left
        have hA : ¬(chunk_size < total + slen + 0) := fun hA => hguard.2 ⟨hA, by omega⟩
        omega

/-- Any document produced by `_join_docs` is at most as long as the splits it
joins (joining is concatenation for the empty separator, then stripping). -/
theorem join_docs_length (docs : List (List Char)) (c : List Char)
    (h : c ∈ (join_docs [] docs).toList) : c.length ≤ docs.flatten.length := by
  rw [join_docs] at h
  simp only [joinWithSep_nil_sep] at h
  split at h
  · simp at h
  · simp only [Option.toList_some, List.mem_singleton] at h
    subst h
    exact pyStrip_length_le _

/-- `_merge_splits` invariant: if every incoming split is below the budget and
the accumulated total is within it, every emitted chunk is within it. -/
theorem mergeAux_bound (rest : List (List Char)) :
    ∀ (cur : List (List Char)) (total : Nat), total = cur.flatten.length →
      total ≤ chunk_size → (∀ s ∈ rest, s.length < chunk_size) →
      ∀ c ∈ mergeAux [] cur total rest, c.length ≤ chunk_size := by
  induction rest with
  | nil =>
    intro cur total htot hle _ c hc
    rw [mergeAux] at hc
    have := join_docs_length cur c hc
    omega
  | cons d rest ih =>
    intro cur total htot hle hsmall c hc
    have hd : d.length < chunk_size := hsmall d (List.mem_cons_self d rest)
    have hrest : ∀ s ∈ rest, s.length < chunk_size :=
      fun x hx => hsmall x (List.mem_cons_of_mem d hx)
    cases cur with
    | nil =>
      simp only [List.flatten_nil, List.length_nil] at htot
      subst htot
      rw [mergeAux] at hc
      exact ih [d] (0 + d.length) (by simp) (by simp; omega) hrest c hc
    | cons c0 cur' =>
      rw [mergeAux] at hc
      split at hc
      · rename_i hguard
        rcases List.mem_append.mp hc with hmem | hmem
        · have := join_docs_length (c0 :: cur') c hmem
          omega
        · have hpost := popLoop_post d.length (c0 :: cur') total htot
          have hmem' : c ∈ mergeAux []
              ((popLoop 0 d.length (c0 :: cur') total).1 ++ [d])
              ((popLoop 0 d.length (c0 :: cur') total).2 + d.length +
                (if (popLoop 0 d.length (c0 :: cur') total).1 = [] then 0
                  else (List.length ([] : List Char)))) rest := hmem
          simp only [List.length_nil, ite_self] at hmem'
          have e1 : ((popLoop 0 d.length (c0 :: cur') total).1 ++ [d]).flatten.length =
              (popLoop 0 d.length (c0 :: cur') total).1.flatten.length + d.length := by simp
          refine ih _ _ ?_ ?_ hrest c hmem'
          · omega
          · rcases hpost.2.2 with hroom | hzero <;> omega
      · rename_i hguard
        simp only [List.length_nil, Nat.add_zero, not_lt] at hguard
        have hmem' : c ∈ mergeAux [] (c0 :: (cur' ++ [d])) (total + d.length + 0) rest := hc
        have e1 : (c0 :: (cur' ++ [d])).flatten.length =
            (c0 :: cur').flatten.length + d.length := by simp; omega
        exact ih (c0 :: (cur' ++ [d])) (total + d.length + 0) (by omega) (by omega)
          hrest c hmem'

/-- `chooseSep` on a list containing the empty separator either picks the
empty separator (with nothing left) or a nonempty one with a nonempty
remainder that still contains the empty separator. -/
theorem chooseSep_cases (text : List Char) (seps : List (List Char)) (h : [] ∈ seps) :
    chooseSep text seps = ([], []) ∨
      ((chooseSep text seps).2 ≠ [] ∧ [] ∈ (chooseSep text seps).2) := by
  induction seps with
  | nil => simp at h
  | cons s rest ih =>
    cases rest with
    | nil =>
      left
      have hs : s = [] := by simpa using h
      subst hs
      rfl
    | cons s2 rest2 =>
      by_cases hs : s = []
      · subst hs
        left
        rw [chooseSep, if_pos rfl]
      · have hmem : [] ∈ s2 :: rest2 := by
          rcases List.mem_cons.mp h with h' | h'
          · exact absurd h'.symm hs
          · exact h'
        rw [chooseSep, if_neg hs]
        split
        · right
          exact ⟨List.cons_ne_nil s2 rest2, hmem⟩
        · exact ih hmem

/-- The `_split_text` loop keeps every produced chunk within the budget as
long as every oversized split is handled within the budget. -/
theorem processSplits_bound (l : List (List Char)) :
    ∀ (good : List (List Char)) (handle : List Char → List (List Char)),
      (∀ s ∈ good, s.length < chunk_size) →
      (∀ s c, c ∈ handle s → c.length ≤ chunk_size) →
      ∀ c ∈ processSplits handle good l, c.length ≤ chunk_size := by
  induction l with
  | nil =>
    intro good handle hgood _ c hc
    rw [processSplits] at hc
    split at hc
    · simp at hc
    · exact mergeAux_bound good [] 0 rfl (by simp [chunk_size]) hgood c hc
  | cons s rest ih =>
    intro good handle hgood hhandle c hc
    rw [processSplits] at hc
    split at hc
    · rename_i hsmall
      refine ih (good ++ [s]) handle ?_ hhandle c hc
      intro x hx
      rcases List.mem_append.mp hx with h' | h'
      · exact hgood x h'
      · rw [List.mem_singleton.mp h']
        exact hsmall
    · rcases List.mem_append.mp hc with hm | hm
      · rcases List.mem_append.mp hm with hm2 | hm2
        · split at hm2
          · simp at hm2
          · exact mergeAux_bound good [] 0 rfl (by simp [chunk_size]) hgood c hm2
        · exact hhandle s c hm2
      · exact ih [] handle (by simp) hhandle c hm

/-- Every chunk `_split_text` produces (over a separator list that ends with
the empty separator, as the default one does) is within the budget. -/
theorem splitTextFuel_bound (fuel : Nat) :
    ∀ (seps : List (List Char)) (text : List Char), [] ∈ seps →
      ∀ c ∈ splitTextFuel fuel seps text, c.length ≤ chunk_size := by
  induction fuel with
  | zero => intro seps text _ c hc; simp [splitTextFuel] at hc
  | succ fuel ih =>
    intro seps text hmem c hc
    rw [splitTextFuel] at hc
    rcases chooseSep_cases text seps hmem with hch | hch
    · rw [hch] at hc
      have hsmall : ∀ s ∈ splitWithSep [] text, s.length < chunk_size := by
        intro s hs
        rw [splitWithSep] at hs
        simp only [dif_pos rfl] at hs
        have := List.mem_filter.mp hs
        obtain ⟨x, _, hx⟩ := List.mem_map.mp this.1
        rw [← hx]
        simp [chunk_size]
      rw [processSplits_allSmall _ _ _ hsmall] at hc
      split at hc
      · simp at hc
      · exact mergeAux_bound _ [] 0 rfl (by simp [chunk_size]) (by simpa using hsmall) c hc
    · refine processSplits_bound _ [] _ (by simp) ?_ c hc
      intro s c' hc'
      rw [if_neg hch.1] at hc'
      exact ih (chooseSep text seps).2 s hch.2 c' hc'

/-- Every chunk of `split_text` is at most `chunk_size` characters long. -/
theorem split_text_bound (text : List Char) (c : List Char) (h : c ∈ split_text text) :
    c.length ≤ chunk_size :=
  splitTextFuel_bound 4 defaultSeps text (by simp [defaultSeps]) c h

/-- The single-character pieces that `_split_text_with_regex` produces for
the empty separator. -/
def unitSplits (a : List Char) : List (List Char) := a.map (fun c => [c])

theorem unitSplits_flatten (a : List Char) : (unitSplits a).flatten = a :=
  flatten_map_single a

theorem noWs_dropWhile (l : List Char) (h : ∀ c ∈ l, c ∉ wsChars) :
    l.dropWhile (· ∈ wsChars) = l := by
  cases l with
  | nil => rfl
  | cons c t =>
    rw [List.dropWhile_cons, if_neg]
    simpa using h c (List.mem_cons_self c t)

theorem noWs_strip (l : List Char) (h : ∀ c ∈ l, c ∉ wsChars) : pyStrip l = l := by
  unfold pyStrip
  rw [noWs_dropWhile l h]
  rw [noWs_dropWhile l.reverse (fun c hc => h c (List.mem_reverse.mp hc))]
  exact List.reverse_reverse l

theorem join_docs_units (a : List Char) (ha : a ≠ []) (h : ∀ c ∈ a, c ∉ wsChars) :
    join_docs [] (unitSplits a) = some a := by
  rw [join_docs]
  simp only [joinWithSep_nil_sep, unitSplits_flatten, noWs_strip a h]
  rw [if_neg ha]

/-- On single-character pieces the pop loop keeps exactly the last
`chunk_overlap` characters (all of them, if fewer). -/
theorem popLoop_units (a : List Char) :
    ∀ (total : Nat), total = a.length → a.length ≤ chunk_size →
      popLoop 0 1 (unitSplits a) total =
        (unitSplits (a.drop (a.length - chunk_overlap)), min a.length chunk_overlap) := by
  induction a with
  | nil =>
    intro total htot _
    simp only [List.length_nil] at htot
    subst htot
    simp [popLoop, unitSplits]
  | cons c t ih =>
    intro total htot hle
    have hcs : chunk_size = 1000 := rfl
    have hco : chunk_overlap = 100 := rfl
    simp only [List.length_cons] at htot hle
    rw [show unitSplits (c :: t) = [c] :: unitSplits t from rfl]
    rw [popLoop]
    simp only [ite_self]
    by_cases hg : chunk_overlap < total ∨ (chunk_size < total + 1 + 0 ∧ 0 < total)
    · rw [if_pos hg]
      have h100 : chunk_overlap < total := by
        rcases hg with h1 | h2
        · exact h1
        · omega
      have harg : total - ([c].length + 0) = t.length := by
        simp only [List.length_cons, List.length_nil]
        omega
      rw [harg]
      rw [ih t.length rfl (by omega)]
      have hd : (c :: t).drop ((c :: t).length - chunk_overlap) =
          t.drop (t.length - chunk_overlap) := by
        have : (c :: t).length - chunk_overlap = (t.length - chunk_overlap) + 1 := by
          simp only [List.length_cons]
          omega
        rw [this, List.drop_succ_cons]
      have hm : min t.length chunk_overlap = min (c :: t).length chunk_overlap := by
        simp only [List.length_cons]
        omega
      rw [← hd]
      rw [hm]
    · rw [if_neg hg]
      rw [not_or] at hg
      have hsm : total ≤ chunk_overlap := by omega
      have hdrop : (c :: t).length - chunk_overlap = 0 := by
        simp only [List.length_cons]
        omega
      rw [hdrop, List.drop_zero]
      have hmin : min (c :: t).length chunk_overlap = total := by
        simp only [List.length_cons]
        omega
      rw [hmin]
      rfl

/-- The consecutive-overlap invariant over a chunk list: every chunk except
possibly the last is exactly `chunk_size` long, and the last `chunk_overlap`
characters of each chunk reappear as the first `chunk_overlap` characters of
the next one. -/
def chainOk : List (List Char) → Prop
  | [] => True
  | [_] => True
  | x :: y :: t =>
    (x.length = chunk_size ∧ x.drop (chunk_size - chunk_overlap) = y.take chunk_overlap) ∧
      chainOk (y :: t)

/-- Executable form of `chainOk`. -/
def chainOkB : List (List Char) → Bool
  | [] => true
  | [_] => true
  | x :: y :: t =>
    ((x.length == chunk_size) && (x.drop (chunk_size - chunk_overlap) == y.take chunk_overlap))
      && chainOkB (y :: t)

theorem chainOkB_iff (l : List (List Char)) : chainOkB l = true ↔ chainOk l := by
  match l with
  | [] => simp [chainOkB, chainOk]
  | [x] => simp [chainOkB, chainOk]
  | x :: y :: t =>
    rw [chainOkB, chainOk]
    rw [Bool.and_eq_true, Bool.and_eq_true, beq_iff_eq, beq_iff_eq]
    rw [chainOkB_iff (y :: t)]

/-- Structure of the merge output on single-character pieces: the first chunk
begins with the accumulated characters. -/
theorem mergeAux_units_head (b : List Char) :
    ∀ (a : List Char), a ≠ [] → a.length ≤ chunk_size →
      (∀ c ∈ a, c ∉ wsChars) → (∀ c ∈ b, c ∉ wsChars) →
      ∃ h t, mergeAux [] (unitSplits a) a.length (unitSplits b) = h :: t ∧
        h.take a.length = a := by
  induction b with
  | nil =>
    intro a ha _ hwa _
    obtain ⟨a0, a', rfl⟩ := List.exists_cons_of_ne_nil ha
    refine ⟨a0 :: a', [], ?_, List.take_length _⟩
    show (join_docs [] (unitSplits (a0 :: a'))).toList = [a0 :: a']
    rw [join_docs_units (a0 :: a') (by simp) hwa]
    rfl
  | cons c t ih =>
    intro a ha hle hwa hwb
    have hcs : chunk_size = 1000 := rfl
    obtain ⟨a0, a', rfl⟩ := List.exists_cons_of_ne_nil ha
    rw [show unitSplits (a0 :: a') = [a0] :: unitSplits a' from rfl]
    rw [show unitSplits (c :: t) = [c] :: unitSplits t from rfl]
    rw [mergeAux]
    by_cases hfull : chunk_size < (a0 :: a').length + [c].length + ([] : List Char).length
    · rw [if_pos hfull]
      have hjd : join_docs [] ([a0] :: unitSplits a') = some (a0 :: a') :=
        join_docs_units (a0 :: a') ha hwa
      rw [hjd]
      refine ⟨a0 :: a', _, rfl, List.take_length _⟩
    · rw [if_neg hfull]
      have hwa' : ∀ x ∈ (a0 :: a') ++ [c], x ∉ wsChars := by
        intro x hx
        rcases List.mem_append.mp hx with h' | h'
        · exact hwa x h'
        · rw [List.mem_singleton.mp h']
          exact hwb c (List.mem_cons_self c t)
      have hwb' : ∀ x ∈ t, x ∉ wsChars := fun x hx => hwb x (List.mem_cons_of_mem c hx)
      have hle' : ((a0 :: a') ++ [c]).length ≤ chunk_size := by
        simp only [List.length_append, List.length_cons, List.length_nil,
          List.length_singleton] at hfull ⊢
        omega
      obtain ⟨h, t', heq, htake⟩ := ih ((a0 :: a') ++ [c]) (by simp) hle' hwa' hwb'
      refine ⟨h, t', ?_, ?_⟩
      · have e3 : mergeAux [] ([a0] :: (unitSplits a' ++ [[c]]))
            ((a0 :: a').length + [c].length + ([] : List Char).length) (unitSplits t) =
            mergeAux [] (unitSplits ((a0 :: a') ++ [c])) (((a0 :: a') ++ [c]).length)
              (unitSplits t) := by
          have e1 : unitSplits ((a0 :: a') ++ [c]) = [a0] :: (unitSplits a' ++ [[c]]) := by
            simp [unitSplits]
          have e2 : ((a0 :: a') ++ [c]).length =
              (a0 :: a').length + [c].length + ([] : List Char).length := by
            simp
          rw [e1, e2]
        exact e3.trans heq
      · have hmin : min (a0 :: a').length (((a0 :: a') ++ [c]).length) = (a0 :: a').length :=
          Nat.min_eq_left (by simp)
        have hstep : (h.take (((a0 :: a') ++ [c]).length)).take (a0 :: a').length =
            h.take (a0 :: a').length := by
          rw [List.take_take, hmin]
        rw [htake] at hstep
        rw [← hstep]
        exact List.take_left _ _

theorem some_toList_append (x : List Char) (Y : List (List Char)) :
    ((some x).toList) ++ Y = x :: Y := rfl

theorem unitSplits_append_single (x : List Char) (c : Char) :
    unitSplits (x ++ [c]) = unitSplits x ++ [[c]] := by
  simp [unitSplits]

/-- The merge loop on single-character pieces produces a chunk list
satisfying the window invariant `chainOk`. -/
theorem mergeAux_units_chain (b : List Char) :
    ∀ (a : List Char), a ≠ [] → a.length ≤ chunk_size →
      (∀ c ∈ a, c ∉ wsChars) → (∀ c ∈ b, c ∉ wsChars) →
      chainOk (mergeAux [] (unitSplits a) a.length (unitSplits b)) := by
  induction b with
  | nil =>
    intro a ha _ hwa _
    obtain ⟨a0, a', rfl⟩ := List.exists_cons_of_ne_nil ha
    have hone : mergeAux [] (unitSplits (a0 :: a')) (a0 :: a').length (unitSplits []) =
        [a0 :: a'] := by
      show (join_docs [] (unitSplits (a0 :: a'))).toList = [a0 :: a']
      rw [join_docs_units (a0 :: a') (by simp) hwa]
      rfl
    rw [hone]
    trivial
  | cons c t ih =>
    intro a ha hle hwa hwb
    have hcs : chunk_size = 1000 := rfl
    have hco : chunk_overlap = 100 := rfl
    obtain ⟨a0, a', rfl⟩ := List.exists_cons_of_ne_nil ha
    have hwb' : ∀ x ∈ t, x ∉ wsChars := fun x hx => hwb x (List.mem_cons_of_mem c hx)
    rw [show unitSplits (a0 :: a') = [a0] :: unitSplits a' from rfl]
    rw [show unitSplits (c :: t) = [c] :: unitSplits t from rfl]
    rw [mergeAux]
    by_cases hfull : chunk_size < (a0 :: a').length + [c].length + ([] : List Char).length
    · rw [if_pos hfull]
      have hlen : (a0 :: a').length = chunk_size := by
        have e : ([c] : List Char).length = 1 := rfl
        have e2 : ([] : List Char).length = 0 := rfl
        omega
      have hjd : join_docs [] ([a0] :: unitSplits a') = some (a0 :: a') :=
        join_docs_units (a0 :: a') (by simp) hwa
      rw [hjd]
      have hpop : popLoop 0 [c].length ([a0] :: unitSplits a')
          (a0 :: a').length =
          (unitSplits ((a0 :: a').drop ((a0 :: a').length - chunk_overlap)),
            min (a0 :: a').length chunk_overlap) :=
        popLoop_units (a0 :: a') (a0 :: a').length rfl hle
      rw [some_toList_append]
      simp only [List.length_nil, ite_self]
      simp only [hpop]
      have hALen : ((a0 :: a').drop ((a0 :: a').length - chunk_overlap)).length =
          chunk_overlap := by
        rw [List.length_drop]
        omega
      have hmin : min (a0 :: a').length chunk_overlap = chunk_overlap := by
        rw [hlen]
        decide
      have hcombo : min (a0 :: a').length chunk_overlap + [c].length + 0 =
          ((a0 :: a').drop ((a0 :: a').length - chunk_overlap) ++ [c]).length := by
        rw [List.length_append, hALen, hmin]
        omega
      rw [hcombo, ← unitSplits_append_single]
      have hne2 : (a0 :: a').drop ((a0 :: a').length - chunk_overlap) ++ [c] ≠ [] := by simp
      have hlen2 : ((a0 :: a').drop ((a0 :: a').length - chunk_overlap) ++ [c]).length ≤
          chunk_size := by
        rw [List.length_append, hALen]
        have e : ([c] : List Char).length = 1 := rfl
        omega
      have hw2 : ∀ x ∈ (a0 :: a').drop ((a0 :: a').length - chunk_overlap) ++ [c],
          x ∉ wsChars := by
        intro x hx
        rcases List.mem_append.mp hx with h' | h'
        · exact hwa x (List.mem_of_mem_drop h')
        · rw [List.mem_singleton.mp h']
          exact hwb c (List.mem_cons_self c t)
      obtain ⟨h, t', heq, htake⟩ :=
        mergeAux_units_head t ((a0 :: a').drop ((a0 :: a').length - chunk_overlap) ++ [c])
          hne2 hlen2 hw2 hwb'
      have hchain := ih ((a0 :: a').drop ((a0 :: a').length - chunk_overlap) ++ [c])
        hne2 hlen2 hw2 hwb'
      rw [heq] at hchain ⊢
      have haD : (a0 :: a').drop (chunk_size - chunk_overlap) =
          (a0 :: a').drop ((a0 :: a').length - chunk_overlap) := by
        rw [hlen]
      have h1 : (h.take (((a0 :: a').drop ((a0 :: a').length - chunk_overlap) ++
          [c]).length)).take chunk_overlap = h.take chunk_overlap := by
        rw [List.take_take]
        congr 1
        rw [List.length_append, hALen]
        have e : ([c] : List Char).length = 1 := rfl
        omega
      rw [htake] at h1
      have h2 : ((a0 :: a').drop ((a0 :: a').length - chunk_overlap) ++ [c]).take
          chunk_overlap = (a0 :: a').drop ((a0 :: a').length - chunk_overlap) :=
        List.take_left' hALen
      exact ⟨⟨hlen, haD.trans (h2.symm.trans h1)⟩, hchain⟩
    · rw [if_neg hfull]
      have hwa' : ∀ x ∈ (a0 :: a') ++ [c], x ∉ wsChars := by
        intro x hx
        rcases List.mem_append.mp hx with h' | h'
        · exact hwa x h'
        · rw [List.mem_singleton.mp h']
          exact hwb c (List.mem_cons_self c t)
      have hle' : ((a0 :: a') ++ [c]).length ≤ chunk_size := by
        simp only [List.length_append, List.length_cons, List.length_nil,
          List.length_singleton] at hfull ⊢
        omega
      have hchain := ih ((a0 :: a') ++ [c]) (by simp) hle' hwa' hwb'
      have e3 : mergeAux [] ([a0] :: (unitSplits a' ++ [[c]]))
          ((a0 :: a').length + [c].length + ([] : List Char).length) (unitSplits t) =
          mergeAux [] (unitSplits ((a0 :: a') ++ [c])) (((a0 :: a') ++ [c]).length)
            (unitSplits t) := by
        have e1 : unitSplits ((a0 :: a') ++ [c]) = [a0] :: (unitSplits a' ++ [[c]]) := by
          simp [unitSplits]
        have e2 : ((a0 :: a') ++ [c]).length =
            (a0 :: a').length + [c].length + ([] : List Char).length := by
          simp
        rw [e1, e2]
      exact e3.symm ▸ hchain

theorem findSplit_ws_none (c0 : Char) (s' text : List Char)
    (hc0 : c0 ∈ wsChars) (htext : ∀ c ∈ text, c ∉ wsChars) :
    findSplit (c0 :: s') text = none := by
  induction text with
  | nil => rfl
  | cons c rest ih =>
    have hnl : ¬(leadsWith (c0 :: s') (c :: rest) = true) := by
      intro hl
      rw [leadsWith, Bool.and_eq_true, beq_iff_eq] at hl
      exact htext c (List.mem_cons_self c rest) (hl.1 ▸ hc0)
    rw [findSplit, if_neg hnl, ih (fun x hx => htext x (List.mem_cons_of_mem c hx))]
    rfl

/-- Whitespace-free text matches none of the nonempty default separators, so
`_split_text` falls through to the empty separator. -/
theorem chooseSep_noWs (text : List Char) (htext : ∀ c ∈ text, c ∉ wsChars) :
    chooseSep text defaultSeps = ([], []) := by
  have h1 : findSplit ['\n', '\n'] text = none :=
    findSplit_ws_none '\n' ['\n'] text (by decide) htext
  have h2 : findSplit ['\n'] text = none :=
    findSplit_ws_none '\n' [] text (by decide) htext
  have h3 : findSplit [' '] text = none :=
    findSplit_ws_none ' ' [] text (by decide) htext
  rw [defaultSeps]
  simp [chooseSep, h1, h2, h3]

theorem filter_units (text : List Char) :
    (text.map (fun c => [c])).filter (· ≠ []) = text.map (fun c => [c]) := by
  apply List.filter_eq_self.mpr
  intro a ha
  obtain ⟨x, _, hx⟩ := List.mem_map.mp ha
  rw [← hx]
  simp

/-- Chunking a whitespace-free document yields 1000-character windows whose
consecutive overlap is exactly the configured 100 characters (the final
window may be shorter). -/
theorem split_text_noWs_chain (text : List Char) (htext : ∀ c ∈ text, c ∉ wsChars) :
    chainOk (split_text text) := by
  rw [split_text, splitTextFuel]
  simp only [chooseSep_noWs text htext]
  rw [show splitWithSep [] text = (text.map (fun c => [c])).filter (· ≠ []) from rfl]
  rw [filter_units]
  have hsmall : ∀ s ∈ text.map (fun c => [c]), s.length < chunk_size := by
    intro s hs
    obtain ⟨x, _, hx⟩ := List.mem_map.mp hs
    rw [← hx]
    simp [chunk_size]
  rw [processSplits_allSmall _ _ _ hsmall]
  simp only [List.nil_append]
  cases text with
  | nil => simp [chainOk]
  | cons c t =>
    rw [if_neg (by simp)]
    rw [merge_splits]
    show chainOk (mergeAux [] [] 0 ([c] :: unitSplits t))
    rw [mergeAux]
    exact mergeAux_units_chain t [c] (by simp) (by simp [chunk_size])
      (fun x hx => by rw [List.mem_singleton.mp hx]; exact htext c (List.mem_cons_self c t))
      (fun x hx => htext x (List.mem_cons_of_mem c hx))

/-- A document that fits in the budget yields its stripped text as the single
chunk (nothing, if the text is whitespace-only). -/
theorem split_text_short (text : List Char) (h : text.length < chunk_size) :
    split_text text = if pyStrip text = [] then [] else [pyStrip text] := by
  rw [split_text, splitTextFuel]
  have hflat := splitWithSep_flatten (chooseSep text defaultSeps).1 text
  have hsmall : ∀ s ∈ splitWithSep (chooseSep text defaultSeps).1 text,
      s.length < chunk_size := by
    intro s hs
    have := member_length_le_flatten s _ hs
    rw [hflat] at this
    omega
  rw [processSplits_allSmall _ _ _ hsmall]
  simp only [List.nil_append]
  by_cases hnil : splitWithSep (chooseSep text defaultSeps).1 text = []
  · rw [if_pos hnil]
    have htext : text = [] := by rw [← hflat, hnil]; rfl
    subst htext
    simp [pyStrip]
  · rw [if_neg hnil]
    rw [merge_splits, mergeAux_small _ [] 0 rfl (by simp [hflat]; omega)]
    rw [List.nil_append, join_docs]
    simp only [joinWithSep_nil_sep, hflat]
    split
    · rfl
    · rfl

/-- The example input record of the corpus format: a full-text field plus
`titulo` and `tipo` metadata fields. -/
def exampleLine : List (String × JVal) :=
  [("texto_completo", .s "Se designa a Juan Perez como Director."),
   ("titulo", .s "RM-001"), ("tipo", .s "Resolución")]

/-- The chunks the ingestion pipeline produces from the example record. -/
def exampleChunks : List Doc :=
  split_documents (JSONLoader_load "./data.jsonl" [exampleLine])

/-- A stub embedding model (the real one is an external service). -/
def stubEmbed : List Char → List Int := fun t => [Int.ofNat t.length]

/-- The prompt `qa_chain_rag` sends for question `q` over the store built
from lines `ls` in environment `env`. -/
def promptFor (env : Env) (ls : List (List (String × JVal))) (q : String) : List Char :=
  buildPrompt
    (format_docs (retrieve
      (FAISS_from_documents env.embed (split_documents (JSONLoader_load "./data.jsonl" ls)))
      env.embed q.toList 5))
    q.toList

/-- C4: if the input file is missing, ingestion shows the `IngestionError`
message, no vector store (Index) is produced, `main` shows the
index-unavailable message, the hosted model is never called, the page's
static content still renders, and no exception escapes the run. -/
theorem C4_missing_input_file (env : Env) (s : SessionState) (sub : Option String)
    (hfile : env.fileLines = none) :
    (load_and_process_documents env).1 = none ∧
    PageItem.errorMsg ingestionErrorText ∈ (main_run env s sub).page ∧
    PageItem.errorMsg ragInitErrorText ∈ (main_run env s sub).page ∧
    PageItem.markup "sidebar" ∈ (main_run env s sub).page ∧
    (main_run env s sub).llmCalls = 0 ∧
    ∀ m, PageItem.exceptionBox m ∉ (main_run env s sub).page := by
  simp [main_run, load_and_process_documents, hfile]

/-- C3: if the credential is missing (unset or empty), the run shows the
distinct `ConfigurationError` warning, makes no call to the hosted model,
renders no answer, and shows no error box, regardless of the pending query. -/
theorem C3_missing_credential (env : Env) (s : SessionState) (sub : Option String)
    (ls : List (List (String × JVal))) (hfile : env.fileLines = some ls)
    (hkey : keyMissing env.apiKey = true) :
    PageItem.warnMsg keyWarnText ∈ (main_run env s sub).page ∧
    (main_run env s sub).llmCalls = 0 ∧
    (∀ a, PageItem.answerBox a ∉ (main_run env s sub).page) ∧
    (∀ m, PageItem.errorMsg m ∉ (main_run env s sub).page) ∧
    (∀ m, PageItem.exceptionBox m ∉ (main_run env s sub).page) := by
  simp [main_run, load_and_process_documents, hfile, hkey]

/-- C2: when the hosted-model call for a query fails, that run shows exactly
one user-visible error element — the exception panel carrying that error —
and the session survives with the Index intact: a subsequent run of the same
environment with a query whose hosted call succeeds renders its answer. -/
theorem C2_generation_error_handling (env : Env) (s : SessionState) (q : String)
    (ls : List (List (String × JVal))) (e : String)
    (hfile : env.fileLines = some ls) (hkey : keyMissing env.apiKey = false)
    (hllm : env.llm (promptFor env ls q) = .error e) :
    countUserErrors (main_run env s (some q)).page = 1 ∧
    PageItem.exceptionBox e ∈ (main_run env s (some q)).page ∧
    (∀ q2 a2, env.llm (promptFor env ls q2) = .ok a2 →
      answerTexts (main_run env (main_run env s (some q)).state (some q2)).page =
        [a2.toList]) := by
  refine ⟨?_, ?_, ?_⟩
  · simp [main_run, load_and_process_documents, hfile, hkey, promptFor] at hllm ⊢
    simp [hllm, countUserErrors, isUserError]
  · simp [main_run, load_and_process_documents, hfile, hkey, promptFor] at hllm ⊢
    simp [hllm]
  · intro q2 a2 hok
    simp [main_run, load_and_process_documents, hfile, hkey, promptFor] at hok ⊢
    simp [hok, answerTexts]

/-- C9: retrieval is deterministic — submitting the same question in any two
session states of the same environment (same Index, same embedding) renders
the same cited chunk sequence, in the same order, with the same top-1. -/
theorem C9_retrieval_deterministic (env : Env) (s1 s2 : SessionState) (q : String) :
    sourceItems (main_run env s1 (some q)).page =
      sourceItems (main_run env s2 (some q)).page ∧
    (sourceItems (main_run env s1 (some q)).page).head? =
      (sourceItems (main_run env s2 (some q)).page).head? := by
  have hpage : (main_run env s1 (some q)).page = (main_run env s2 (some q)).page := by
    cases hl : env.fileLines with
    | none => simp [main_run, load_and_process_documents, hl]
    | some ls =>
      by_cases hk : keyMissing env.apiKey = true
      · simp [main_run, load_and_process_documents, hl, hk]
      · simp [main_run, load_and_process_documents, hl, hk]
  rw [hpage]
  exact ⟨rfl, rfl⟩

/-- C10: on a successful query, the prompt that produced the displayed answer
is exactly the template instantiated with the `CONTEXT` block formed by
joining the displayed source chunks' texts (same chunks, same order), even
though the code invokes the retriever once inside the chain and once for
display. -/
theorem C10_citations_match_context (env : Env) (s : SessionState) (q : String)
    (ls : List (List (String × JVal))) (a : String)
    (hfile : env.fileLines = some ls) (hkey : keyMissing env.apiKey = false)
    (hllm : env.llm (promptFor env ls q) = .ok a) :
    (main_run env s (some q)).promptUsed =
      some (buildPrompt (joinWithSep ['\n', '\n']
        (sourceTexts (main_run env s (some q)).page)) q.toList) ∧
    answerTexts (main_run env s (some q)).page = [a.toList] := by
  simp [main_run, load_and_process_documents, hfile, hkey, promptFor, format_docs] at hllm ⊢
  simp [hllm, sourceTexts, answerTexts]
  congr 2
  generalize retrieve (FAISS_from_documents env.embed
    (split_documents (JSONLoader_load "./data.jsonl" ls))) env.embed q.data 5 = docs
  induction docs with
  | nil => rfl
  | cons d t ih => simp [List.filterMap_cons, ih]

/-- Concatenation of chunk texts with the configured overlap removed from
each chunk after the first (the reconstruction the round-trip property
speaks about). -/
def reconOverlap (ov : Nat) : List (List Char) → List Char
  | [] => []
  | c :: rest => c ++ (rest.map (fun x => x.drop ov)).flatten

/-- C1 (code bug): on the documented example record the loader keeps only
`source` and `seq_num` in the metadata — the other top-level fields
(`titulo`, `tipo`) are dropped, and every citation therefore renders the
fallback title and type instead of the record's own. -/
theorem C1_loader_metadata_bug :
    exampleChunks.length = 1 ∧
    (∀ c ∈ exampleChunks,
      c.page_content = "Se designa a Juan Perez como Director.".toList) ∧
    (∀ c ∈ exampleChunks,
      c.metadata.lookup "titulo" = none ∧ c.metadata.lookup "tipo" = none ∧
      c.metadata.lookup "source" = some (.s "./data.jsonl")) ∧
    (∀ c ∈ exampleChunks,
      cit_titulo c = "Sin título disponible" ∧ cit_tipo c = "Documento") := by
  decide

/-- C5 (counterexample): the document `"a "` is split into the single chunk
`"a"`, so no concatenation of the chunks with overlaps removed can
reconstruct the original text. -/
theorem C5_roundtrip_counterexample :
    split_text "a ".toList = ["a".toList] ∧
    reconOverlap chunk_overlap (split_text "a ".toList) ≠ "a ".toList := by
  decide

/-- C5 (amended): concatenating the chunk texts with overlaps removed
reconstructs the document text stripped of leading and trailing whitespace;
in particular it is exact for a document that fits inside the chunk budget
and carries no leading or trailing whitespace. -/
theorem C5_roundtrip_amended (text : List Char) (h1 : text.length < chunk_size)
    (h2 : pyStrip text = text) :
    reconOverlap chunk_overlap (split_text text) = text := by
  rw [split_text_short text h1]
  by_cases hnil : pyStrip text = []
  · rw [if_pos hnil, ← h2, hnil]
    rfl
  · rw [if_neg hnil]
    simp [reconOverlap, h2]

/-- The first 600-character word of the overlap counterexample. -/
def wordA : List Char := List.replicate 600 'a'

/-- The second 600-character word of the overlap counterexample. -/
def wordB : List Char := List.replicate 600 'b'

/-- Two long words separated by a single space. -/
def wordsText : List Char := wordA ++ [' '] ++ wordB

theorem findSplit_none_head (c0 : Char) (s' text : List Char) (h : c0 ∉ text) :
    findSplit (c0 :: s') text = none := by
  induction text with
  | nil => rfl
  | cons c rest ih =>
    have hne : ¬(leadsWith (c0 :: s') (c :: rest) = true) := by
      intro hl
      rw [leadsWith, Bool.and_eq_true, beq_iff_eq] at hl
      exact h (hl.1 ▸ List.mem_cons_self c rest)
    rw [findSplit, if_neg hne, ih (fun hm => h (List.mem_cons_of_mem c hm))]
    rfl

theorem findSplit_space_replicate (n : Nat) (tail : List Char) :
    findSplit [' '] (List.replicate n 'a' ++ [' '] ++ tail) =
      some (List.replicate n 'a', tail) := by
  induction n with
  | zero =>
    show findSplit [' '] (([] : List Char) ++ [' '] ++ tail) = some ([], tail)
    simp only [List.nil_append, List.singleton_append]
    rw [findSplit, if_pos (show leadsWith [' '] (' ' :: tail) = true from rfl)]
    rfl
  | succ n ih =>
    rw [List.replicate_succ, List.cons_append, List.cons_append]
    have hne : ¬(leadsWith [' '] ('a' :: (List.replicate n 'a' ++ [' '] ++ tail)) = true) := by
      simp [leadsWith]
    rw [findSplit, if_neg hne]
    rw [ih]
    rfl

theorem nl_not_mem_wordsText : ('\n') ∉ wordsText := by
  intro h
  simp only [wordsText, wordA, wordB, List.mem_append, List.mem_singleton,
    List.mem_replicate] at h
  rcases h with (h | h) | h
  · exact absurd h.2 (by decide)
  · exact absurd h (by decide)
  · exact absurd h.2 (by decide)

theorem space_not_mem_wordB : (' ') ∉ wordB := by
  intro h
  simp only [wordB, List.mem_replicate] at h
  exact absurd h.2 (by decide)

theorem findSplit_space_wordsText :
    findSplit [' '] wordsText = some (wordA, wordB) :=
  findSplit_space_replicate 600 wordB

theorem wordsText_len : wordsText.length = 1200 + 1 := by
  simp only [wordsText, wordA, wordB, List.length_append, List.length_replicate,
    List.length_cons, List.length_nil]

theorem splitOnSep_wordsText : splitOnSep [' '] wordsText = [wordA, wordB] := by
  rw [splitOnSep]
  rw [splitOnSepFuel, findSplit_space_wordsText]
  show wordA :: splitOnSepFuel [' '] wordsText.length wordB = [wordA, wordB]
  rw [wordsText_len]
  rw [splitOnSepFuel, findSplit_none_head ' ' [] wordB space_not_mem_wordB]

theorem chooseSep_wordsText : chooseSep wordsText defaultSeps = ([' '], [[]]) := by
  have h1 : findSplit ['\n', '\n'] wordsText = none :=
    findSplit_none_head '\n' ['\n'] wordsText nl_not_mem_wordsText
  have h2 : findSplit ['\n'] wordsText = none :=
    findSplit_none_head '\n' [] wordsText nl_not_mem_wordsText
  rw [defaultSeps]
  simp [chooseSep, h1, h2, findSplit_space_wordsText]

theorem wordA_len : wordA.length = 600 := by
  rw [wordA, List.length_replicate]

theorem wordB_len : wordB.length = 600 := by
  rw [wordB, List.length_replicate]

theorem wordA_ne_nil : wordA ≠ [] := by
  intro h
  have h2 := congrArg List.length h
  rw [wordA_len] at h2
  simp at h2

theorem wordB_ne_nil : wordB ≠ [] := by
  intro h
  have h2 := congrArg List.length h
  rw [wordB_len] at h2
  simp at h2

theorem noWs_wordA : ∀ c ∈ wordA, c ∉ wsChars := by
  intro c hc
  rw [List.eq_of_mem_replicate hc]
  decide

theorem noWs_wordB : ∀ c ∈ wordB, c ∉ wsChars := by
  intro c hc
  rw [List.eq_of_mem_replicate hc]
  decide

theorem splitWithSep_wordsText :
    splitWithSep [' '] wordsText = [wordA, ' ' :: wordB] := by
  rw [splitWithSep, if_neg (by decide), splitOnSep_wordsText]
  simp [List.filter_cons, wordA_ne_nil]

theorem join_docs_wordA : join_docs [] [wordA] = some wordA := by
  rw [join_docs]
  have h1 : joinWithSep [] [wordA] = wordA := rfl
  rw [h1, noWs_strip wordA noWs_wordA]
  rw [if_neg wordA_ne_nil]

theorem join_docs_spaceWordB : join_docs [] [' ' :: wordB] = some wordB := by
  rw [join_docs]
  have h1 : joinWithSep [] [' ' :: wordB] = ' ' :: wordB := rfl
  rw [h1]
  have h2 : pyStrip (' ' :: wordB) = wordB := by
    unfold pyStrip
    rw [List.dropWhile_cons, if_pos (by decide)]
    rw [noWs_dropWhile wordB noWs_wordB]
    rw [noWs_dropWhile wordB.reverse (fun c hc => noWs_wordB c (List.mem_reverse.mp hc))]
    exact List.reverse_reverse wordB
  rw [h2, if_neg wordB_ne_nil]

theorem spaceWordB_len : (' ' :: wordB).length = 601 := by
  rw [List.length_cons, wordB_len]

theorem merge_splits_words :
    merge_splits [] [wordA, ' ' :: wordB] = [wordA, wordB] := by
  rw [merge_splits]
  rw [show mergeAux [] [] 0 [wordA, ' ' :: wordB]
      = mergeAux [] [wordA] (0 + wordA.length) [' ' :: wordB] from rfl]
  rw [mergeAux]
  rw [if_pos (show chunk_size < 0 + wordA.length + (' ' :: wordB).length +
      ([] : List Char).length from by rw [wordA_len, spaceWordB_len]; decide)]
  rw [join_docs_wordA]
  have hpop : popLoop ([] : List Char).length (' ' :: wordB).length [wordA]
      (0 + wordA.length) = ([], 0) := by
    rw [popLoop]
    rw [if_pos (Or.inl (show chunk_overlap < 0 + wordA.length from
      by rw [wordA_len]; decide))]
    rw [(by rw [wordA_len]; decide :
      (0 + wordA.length) - (wordA.length + if ([] : List (List Char)) = [] then 0
        else ([] : List Char).length) = 0)]
    rfl
  simp only [hpop]
  show (some wordA).toList ++ (join_docs [] [' ' :: wordB]).toList = [wordA, wordB]
  rw [join_docs_spaceWordB]
  rfl

/-- C6 (counterexample): two 600-character words separated by one space are
split into two chunks with no overlap at all, not the configured 100
characters. -/
theorem C6_overlap_counterexample :
    split_text wordsText = [wordA, wordB] ∧
    ¬(wordA.drop (wordA.length - chunk_overlap) = wordB.take chunk_overlap) := by
  constructor
  · rw [split_text, splitTextFuel]
    simp only [chooseSep_wordsText]
    rw [splitWithSep_wordsText]
    have hsmall : ∀ s ∈ [wordA, ' ' :: wordB], s.length < chunk_size := by
      intro s hs
      rcases List.mem_cons.mp hs with h | h
      · rw [h, wordA_len]; decide
      · rw [List.mem_singleton.mp h, spaceWordB_len]; decide
    rw [processSplits_allSmall _ _ _ hsmall]
    rw [if_neg (by simp)]
    rw [List.nil_append]
    exact merge_splits_words
  · rw [wordA_len, wordA, wordB]
    rw [List.drop_replicate, List.take_replicate]
    rw [(by decide : (600 - (600 - chunk_overlap) : Nat) = 100)]
    rw [(by decide : (min chunk_overlap 600 : Nat) = 100)]
    decide

/-- C6 (amended): when the split boundaries allow it — for any document with
no whitespace — consecutive chunks overlap by exactly the configured 100
characters: every chunk but the last is exactly 1000 characters and its last
100 characters reappear as the first 100 of the next chunk; the final chunk
may be shorter. -/
theorem C6_overlap_amended (text : List Char) (h : ∀ c ∈ text, c ∉ wsChars) :
    chainOkB (split_text text) = true :=
  (chainOkB_iff _).mpr (split_text_noWs_chain text h)

/-- C7: every chunk the Chunker produces from any document list is at most
`chunk_size` (1000) characters long. -/
theorem C7_chunk_length_bound (docs : List Doc) (c : Doc)
    (h : c ∈ split_documents docs) : c.page_content.length ≤ chunk_size := by
  rw [split_documents] at h
  rcases List.mem_flatten.mp h with ⟨l, hl, hc⟩
  rcases List.mem_map.mp hl with ⟨d, _, hd⟩
  rw [← hd] at hc
  rcases List.mem_map.mp hc with ⟨t, ht, hct⟩
  rw [← hct]
  exact split_text_bound d.page_content t ht

/-- C8 (counterexample): the two-character document `" a"` is shorter than
the budget but yields the single chunk `"a"`, which differs from the whole
document text. -/
theorem C8_short_doc_counterexample :
    (" a".toList).length < chunk_size ∧
    split_text " a".toList = ["a".toList] ∧
    "a".toList ≠ " a".toList := by
  decide

/-- C8 (amended): a document shorter than the budget whose stripped text is
nonempty yields exactly one chunk, equal to the document text stripped of
leading and trailing whitespace, with the metadata preserved (a
whitespace-only document yields no chunk). -/
theorem C8_short_doc_amended (d : Doc) (h1 : d.page_content.length < chunk_size)
    (h2 : pyStrip d.page_content ≠ []) :
    split_documents [d] = [Doc.mk (pyStrip d.page_content) d.metadata] := by
  rw [split_documents]
  simp only [List.map_cons, List.map_nil, List.flatten]
  rw [split_text_short d.page_content h1, if_neg h2]
  simp

/-- A concrete healthy environment for witnesses. -/
def envOk : Env :=
  { fileLines := some [exampleLine], apiKey := some "k", embed := stubEmbed,
    llm := fun _ => .ok "Juan Perez fue designado Director." }

/-- The prompt the chain sends for question `q` over the example corpus with
the stub embedding. -/
def witPrompt (q : String) : List Char :=
  buildPrompt
    (format_docs (retrieve
      (FAISS_from_documents stubEmbed
        (split_documents (JSONLoader_load "./data.jsonl" [exampleLine])))
      stubEmbed q.toList 5))
    q.toList

/-- An environment whose hosted model fails exactly on question `q1`. -/
def envMixed : Env :=
  { fileLines := some [exampleLine], apiKey := some "k", embed := stubEmbed,
    llm := fun p => if p = witPrompt "q1" then .error "boom" else .ok "ok" }

/-- An environment with no credential configured. -/
def envNoKey : Env :=
  { fileLines := some [exampleLine], apiKey := none, embed := stubEmbed,
    llm := fun _ => .ok "x" }

/-- An environment whose input file is missing. -/
def envNoFile : Env :=
  { fileLines := none, apiKey := some "k", embed := stubEmbed,
    llm := fun _ => .ok "x" }

set_option maxRecDepth 2500 in
/-- Witness for `C2_generation_error_handling` at a concrete environment. -/
theorem C2_generation_error_handling_witness :
    countUserErrors (main_run envMixed ⟨none⟩ (some "q1")).page = 1 ∧
    PageItem.exceptionBox "boom" ∈ (main_run envMixed ⟨none⟩ (some "q1")).page ∧
    (∀ q2 a2, envMixed.llm (promptFor envMixed [exampleLine] q2) = .ok a2 →
      answerTexts (main_run envMixed (main_run envMixed ⟨none⟩ (some "q1")).state
        (some q2)).page = [a2.toList]) :=
  C2_generation_error_handling envMixed ⟨none⟩ "q1" [exampleLine] "boom" rfl rfl
    (by
      have h : promptFor envMixed [exampleLine] "q1" = witPrompt "q1" := rfl
      rw [h]
      show (if witPrompt "q1" = witPrompt "q1" then (Except.error "boom" : Except String String)
        else Except.ok "ok") = Except.error "boom"
      rw [if_pos rfl])

/-- Witness for `C3_missing_credential` at a concrete environment. -/
theorem C3_missing_credential_witness :
    PageItem.warnMsg keyWarnText ∈ (main_run envNoKey ⟨none⟩ (some "hola")).page ∧
    (main_run envNoKey ⟨none⟩ (some "hola")).llmCalls = 0 ∧
    (∀ a, PageItem.answerBox a ∉ (main_run envNoKey ⟨none⟩ (some "hola")).page) ∧
    (∀ m, PageItem.errorMsg m ∉ (main_run envNoKey ⟨none⟩ (some "hola")).page) ∧
    (∀ m, PageItem.exceptionBox m ∉ (main_run envNoKey ⟨none⟩ (some "hola")).page) :=
  C3_missing_credential envNoKey ⟨none⟩ (some "hola") [exampleLine] rfl rfl

/-- Witness for `C4_missing_input_file` at a concrete environment. -/
theorem C4_missing_input_file_witness :
    (load_and_process_documents envNoFile).1 = none ∧
    PageItem.errorMsg ingestionErrorText ∈ (main_run envNoFile ⟨none⟩ none).page ∧
    PageItem.errorMsg ragInitErrorText ∈ (main_run envNoFile ⟨none⟩ none).page ∧
    PageItem.markup "sidebar" ∈ (main_run envNoFile ⟨none⟩ none).page ∧
    (main_run envNoFile ⟨none⟩ none).llmCalls = 0 ∧
    ∀ m, PageItem.exceptionBox m ∉ (main_run envNoFile ⟨none⟩ none).page :=
  C4_missing_input_file envNoFile ⟨none⟩ none rfl

/-- The example document text. -/
def exText : List Char := "Se designa a Juan Perez como Director.".toList

/-- Witness for `C5_roundtrip_amended` at a concrete document. -/
theorem C5_roundtrip_amended_witness :
    reconOverlap chunk_overlap (split_text exText) = exText :=
  C5_roundtrip_amended exText (by decide) (by decide)

/-- Witness for `C6_overlap_amended` at a concrete whitespace-free document. -/
theorem C6_overlap_amended_witness :
    chainOkB (split_text (List.replicate 1001 'a')) = true :=
  C6_overlap_amended (List.replicate 1001 'a')
    (fun c hc => by rw [List.eq_of_mem_replicate hc]; decide)

/-- Witness for `C7_chunk_length_bound` at a concrete chunk. -/
theorem C7_chunk_length_bound_witness :
    (Doc.mk "Se designa a Juan Perez como Director.".toList
      [("source", JVal.s "./data.jsonl"), ("seq_num", JVal.n 1)]).page_content.length ≤
      chunk_size :=
  C7_chunk_length_bound (JSONLoader_load "./data.jsonl" [exampleLine]) _ (by decide)

/-- A concrete document with metadata for the C8 witness. -/
def exDoc : Doc :=
  ⟨"Se designa a Juan Perez como Director.".toList, [("titulo", JVal.s "RM-001")]⟩

/-- Witness for `C8_short_doc_amended` at a concrete document. -/
theorem C8_short_doc_amended_witness :
    split_documents [exDoc] = [Doc.mk (pyStrip exDoc.page_content) exDoc.metadata] :=
  C8_short_doc_amended exDoc (by decide) (by decide)

/-- Witness for `C10_citations_match_context` at a concrete environment. -/
theorem C10_citations_match_context_witness :
    (main_run envOk ⟨none⟩ (some "pregunta")).promptUsed =
      some (buildPrompt (joinWithSep ['\n', '\n']
        (sourceTexts (main_run envOk ⟨none⟩ (some "pregunta")).page)) "pregunta".toList) ∧
    answerTexts (main_run envOk ⟨none⟩ (some "pregunta")).page =
      ["Juan Perez fue designado Director.".toList] :=
  C10_citations_match_context envOk ⟨none⟩ "pregunta" [exampleLine]
    "Juan Perez fue designado Director." rfl rfl rfl
